import Mathlib

/-!
Verification of the Code-Architect-Sync repository: a shallow embedding of
its tree-listing parser (`parseStructure` in StructureImporter.tsx), the
tree mutation operation `deleteItem` (FileExplorer.tsx), the flattener
`getFilesForHFUpload` and the bounded retry loop `uploadWithRetry`
(ExportPanel), and the JSON export of the forest (`downloadAsJson`).

Conventions of the embedding:
* JavaScript strings are modelled as Lean `String` / `List Char`; `length`
  counts characters (identical to JS UTF-16 code-unit counts for the
  BMP text these inputs consist of).
* JS number arithmetic on the values arising here (small integers divided
  by 4, retry delays scaled by 5/4) is exact dyadic-rational arithmetic,
  modelled as `ℚ`.
* Node ids (`Date.now().toString() + Math.random()...` in the source) are
  opaque unique identifiers per the data model; the embedding generates
  them deterministically as the decimal string of a running counter.
-/

namespace CodeArchitectSync

/-! ### JS string primitives

`jsIsSpace` models the JS `\s` class / `trim()` on the ASCII whitespace
characters (the only whitespace these inputs carry). -/

def jsIsSpace (c : Char) : Bool :=
  c == ' ' || c == '\t' || c == '\n' || c == '\r' || c == '\x0b' || c == '\x0c'

/-- JS `String.prototype.trim`. -/
def jsTrim (s : String) : String :=
  ⟨((s.data.dropWhile jsIsSpace).reverse.dropWhile jsIsSpace).reverse⟩

/-- Split on a separator character; JS `s.split(c)` (`"".split(c) = [""]`). -/
def splitCharAux (c : Char) : List Char → List Char → List String
  | acc, [] => [⟨acc.reverse⟩]
  | acc, x :: xs =>
      if x == c then ⟨acc.reverse⟩ :: splitCharAux c [] xs
      else splitCharAux c (x :: acc) xs

def splitChar (c : Char) (s : String) : List String :=
  splitCharAux c [] s.data

/-- JS `s.startsWith(c)` for a one-character prefix. -/
def startsWithChar (s : String) (c : Char) : Bool :=
  match s.data with
  | [] => false
  | x :: _ => x == c

/-- JS `s.endsWith(c)` for a one-character suffix. -/
def endsWithChar (s : String) (c : Char) : Bool :=
  match s.data.getLast? with
  | some x => x == c
  | none => false

/-- JS `s.slice(0, -1)`. -/
def dropLastChar (s : String) : String := ⟨s.data.dropLast⟩

/-- JS `s.replace(pat, "")` for a plain-string pattern: remove the first
occurrence of `pat`, or return `s` unchanged when `pat` does not occur. -/
def removeFirstAux (pat : List Char) : List Char → List Char
  | [] => []
  | c :: cs =>
      if pat.isPrefixOf (c :: cs) then (c :: cs).drop pat.length
      else c :: removeFirstAux pat cs

def removeFirst (s pat : String) : String := ⟨removeFirstAux pat.data s.data⟩

/-- JS `s.replace(/\s+/g, ' ')`: every maximal run of whitespace becomes a
single space. -/
def collapseWSAux : Bool → List Char → List Char
  | _, [] => []
  | prevWS, c :: cs =>
      if jsIsSpace c then
        (if prevWS then [] else [' ']) ++ collapseWSAux true cs
      else c :: collapseWSAux false cs

def collapseWS (s : String) : String := ⟨collapseWSAux false s.data⟩

/-! ### The tree data model (`FileNode` in pages/Index.tsx)

```ts
interface FileNode { id: string; name: string; type: 'file' | 'folder';
                     content?: string; children?: FileNode[]; parent?: string }
```
The source populates `content` exactly on files and `children` exactly on
folders (the spec's §3 invariant), so the embedding splits the interface
into the two constructors; the optional `parent` back-reference is kept. -/

inductive FileNode : Type where
  | file (id name content : String) (parent : Option String)
  | folder (id name : String) (children : List FileNode) (parent : Option String)
deriving Repr

def FileNode.id : FileNode → String
  | .file i _ _ _ => i
  | .folder i _ _ _ => i

def FileNode.name : FileNode → String
  | .file _ n _ _ => n
  | .folder _ n _ _ => n

def FileNode.parentId : FileNode → Option String
  | .file _ _ _ p => p
  | .folder _ _ _ p => p

/-- The `children` sequence (empty for a file, whose `children` is absent). -/
def FileNode.childList : FileNode → List FileNode
  | .file _ _ _ _ => []
  | .folder _ _ cs _ => cs

mutual
/-- Total number of nodes in a tree (the node itself and all descendants). -/
def nodeCount : FileNode → Nat
  | .file _ _ _ _ => 1
  | .folder _ _ cs _ => 1 + forestCount cs
def forestCount : List FileNode → Nat
  | [] => 0
  | n :: ns => nodeCount n + forestCount ns
end

mutual
/-- All node names of a tree in pre-order. -/
def nodeNames : FileNode → List String
  | .file _ nm _ _ => [nm]
  | .folder _ nm cs _ => nm :: forestNames cs
def forestNames : List FileNode → List String
  | [] => []
  | n :: ns => nodeNames n ++ forestNames ns
end

mutual
/-- `OccursNode n m`: the node value `n` is `m` itself or a descendant of `m`. -/
def OccursNode (n : FileNode) : FileNode → Prop
  | .file i nm c p => n = .file i nm c p
  | .folder i nm cs p => n = .folder i nm cs p ∨ OccursForest n cs
def OccursForest (n : FileNode) : List FileNode → Prop
  | [] => False
  | m :: ms => OccursNode n m ∨ OccursForest n ms
end

/-! ### Line classification (StructureImporter.tsx, lines 21-57)

Each helper is the obvious reading of one expression of `parseStructure`;
`processLineG` below strings them together exactly as the loop body does. -/

/-- Line 23: `line.includes('/') && !line.startsWith(' ') &&
!line.startsWith('├') && !line.startsWith('└')` — the decorative
root-label skip. -/
def rootLabelSkip (line : String) : Bool :=
  line.data.contains '/' && !(startsWithChar line ' ')
    && !(startsWithChar line '├') && !(startsWithChar line '└')

/-- Line 28: `line.replace(/[├└│─]/g, '')`. -/
def isBoxGlyph (c : Char) : Bool :=
  c == '├' || c == '└' || c == '│' || c == '─'

def stripGlyphs (s : String) : String := ⟨s.data.filter (fun c => !isBoxGlyph c)⟩

/-- Line 28: `const cleanLine = line.replace(/[├└│─]/g, '').replace(/\s+/g, ' ')`. -/
def cleanLineOf (line : String) : String := collapseWS (stripGlyphs line)

/-- `cleanLine.trim()`, as used on lines 29 and 31. -/
def trimmedOf (line : String) : String := jsTrim (cleanLineOf line)

/-- Line 29: `const depth = (line.length - cleanLine.trim().length) / 4`.
JS `/` is exact division on these dyadic values, so the depth is a rational
(it is *not* rounded to an integer). -/
def lineDepth (line : String) : ℚ :=
  ((line.length : ℚ) - ((trimmedOf line).length : ℚ)) / 4

/-- The same quantity scaled by 4: `line.length - cleanLine.trim().length`
as an integer. Dividing by the positive constant 4 preserves every order
comparison, so an executable mirror of the parser can compare these scaled
depths instead; `parseStructureZ_eq` below proves the two parsers agree. -/
def lineDepthScaled (line : String) : ℤ :=
  (line.length : ℤ) - ((trimmedOf line).length : ℤ)

/-- Lines 31-34: trimmed clean text, with one trailing `/` stripped. -/
def lineName (line : String) : String :=
  let name := trimmedOf line
  if endsWithChar name '/' then dropLastChar name else name

/-- Line 38: `const isFolder = line.includes('/') || name.endsWith('/')`. -/
def lineIsFolder (line : String) : Bool :=
  line.data.contains '/' || endsWithChar (lineName line) '/'

/-- Lines 39-56: the default content stub for a new file node, selected by
the extension `name.split('.').pop()` (or the well-known name `Dockerfile`). -/
def defaultContent (name : String) : String :=
  let fileExtension :=
    if name.data.contains '.' then (splitChar '.' name).getLastD "" else ""
  if fileExtension == "py" then
    "# " ++ name ++ "\n# TODO: Implement functionality"
  else if fileExtension == "txt" then
    "# Requirements for " ++ removeFirst name ".txt" ++ "\n# Add your dependencies here"
  else if fileExtension == "md" then
    "# " ++ removeFirst name ".md" ++ "\n\nProject description goes here."
  else if fileExtension == "json" then
    "\x7b\n  \"// TODO\": \"Add configuration\"\n\x7d"
  else if name == "Dockerfile" then
    "FROM python:3.9\n\n# TODO: Add Dockerfile instructions"
  else
    "# " ++ name ++ "\n# TODO: Add content"

/-! ### The parser state machine (StructureImporter.tsx, lines 16-88)

The source builds nodes by mutation: a folder node is attached to its
parent when its line is read and its `children` array is pushed to later.
The embedding is the standard functional equivalent: the stack holds one
`Frame` per open folder carrying the children collected so far, and a
folder's finished value is attached to the node below exactly when its
frame is popped — which happens exactly when the next line at depth
`≤` its own arrives, before anything else is attached to the parent, so
positions and order of children coincide with the source's.

The state is generic in the depth type `δ` so that the faithful `ℚ` model
and the executable `ℤ` mirror share one algorithm. -/

structure Frame (δ : Type) where
  id : String
  name : String
  parent : Option String
  children : List FileNode
  depth : δ
deriving Repr

/-- The finished node of a closed frame (only folders are pushed, line 82). -/
def Frame.close {δ : Type} (f : Frame δ) : FileNode :=
  .folder f.id f.name f.children f.parent

structure ParserState (δ : Type) where
  result : List FileNode
  stack : List (Frame δ)
  counter : Nat
deriving Repr

/-- Attach a finished node: to the children of the top frame when the stack
is non-empty, to the root result list otherwise (lines 72-80). -/
def attachNode {δ : Type} (res : List FileNode) (stk : List (Frame δ))
    (n : FileNode) : List FileNode × List (Frame δ) :=
  match stk with
  | [] => (res ++ [n], [])
  | g :: gs => (res, { g with children := g.children ++ [n] } :: gs)

/-- Close a maximal run of popped frames top-down: each frame's finished
node becomes the last child of the frame below it in the run; the result is
the finished node of the run's bottom frame. -/
def collapseFrames {δ : Type} : Frame δ → List (Frame δ) → FileNode
  | f, [] => f.close
  | f, g :: gs => collapseFrames { g with children := g.children ++ [f.close] } gs

/-- Lines 67-70: `while (stack.length > 0 && stack[stack.length - 1].depth
>= depth) stack.pop()`. The popped frames' finished nodes are composed and
attached to what remains. -/
def popGE {δ : Type} [LinearOrder δ] (d : δ)
    (res : List FileNode) (stk : List (Frame δ)) :
    List FileNode × List (Frame δ) :=
  let rest := stk.dropWhile (fun f => d ≤ f.depth)
  match stk.takeWhile (fun f => d ≤ f.depth) with
  | [] => (res, rest)
  | f :: fs => attachNode res rest (collapseFrames f fs)

/-- One iteration of the `for (const line of lines)` loop (lines 21-85). -/
def processLineG {δ : Type} [LinearOrder δ] (depthOf : String → δ)
    (st : ParserState δ) (line : String) : ParserState δ :=
  if rootLabelSkip line then st
  else
    let name := lineName line
    if name == "" then st
    else
      let depth := depthOf line
      let isFolder := lineIsFolder line
      let nodeId := toString st.counter
      let rs := popGE depth st.result st.stack
      let parentId := rs.2.head?.map Frame.id
      if isFolder then
        ⟨rs.1, ⟨nodeId, name, parentId, [], depth⟩ :: rs.2, st.counter + 1⟩
      else
        let rs' := attachNode rs.1 rs.2 (.file nodeId name (defaultContent name) parentId)
        ⟨rs'.1, rs'.2, st.counter + 1⟩

/-- Line 17: `text.split('\n').filter(line => line.trim())`. -/
def linesOf (text : String) : List String :=
  (splitChar '\n' text).filter (fun l => !(jsTrim l).isEmpty)

def initState (δ : Type) : ParserState δ := ⟨[], [], 0⟩

def runLinesG {δ : Type} [LinearOrder δ] (depthOf : String → δ)
    (st : ParserState δ) (ls : List String) : ParserState δ :=
  ls.foldl (processLineG depthOf) st

/-- Close every frame still open at the end of the input. In the source the
open folders were already attached when first read; here their accumulated
children are realised, producing the same forest. -/
def flushFrames {δ : Type} (res : List FileNode) (stk : List (Frame δ)) :
    List FileNode :=
  match stk with
  | [] => res
  | f :: fs => res ++ [collapseFrames f fs]

/-- `parseStructure` (StructureImporter.tsx lines 16-88): the faithful
model, with depths the exact rationals the source computes. -/
def parseStructure (text : String) : List FileNode :=
  let st := runLinesG lineDepth (initState ℚ) (linesOf text)
  flushFrames st.result st.stack

/-- Executable mirror of `parseStructure` comparing depths scaled by 4
(`lineDepthScaled`); proven equal to `parseStructure` in
`parseStructureZ_eq`. -/
def parseStructureZ (text : String) : List FileNode :=
  let st := runLinesG lineDepthScaled (initState ℤ) (linesOf text)
  flushFrames st.result st.stack

/-- Reinterpret a frame's depth through `g` (everything else unchanged). -/
def Frame.mapDepth {δ δ' : Type} (g : δ → δ') (f : Frame δ) : Frame δ' :=
  ⟨f.id, f.name, f.parent, f.children, g f.depth⟩

def ParserState.mapDepth {δ δ' : Type} (g : δ → δ') (st : ParserState δ) :
    ParserState δ' :=
  ⟨st.result, st.stack.map (Frame.mapDepth g), st.counter⟩

/-- The order-embedding `z ↦ z / 4` relating scaled depths to the source's
rational depths. -/
def qOfScaled (z : ℤ) : ℚ := (z : ℚ) / 4

/-! ### Measures of the parser state -/

/-- Nodes a stack still owes the forest: each frame will become one node
holding the children collected so far. -/
def framesCount {δ : Type} : List (Frame δ) → Nat
  | [] => 0
  | f :: fs => (1 + forestCount f.children) + framesCount fs

def stateCount {δ : Type} (st : ParserState δ) : Nat :=
  forestCount st.result + framesCount st.stack

/-- A non-blank line contributes one node exactly when it is not skipped as
a root label and its cleaned name is non-empty. -/
def contributesLine (line : String) : Bool :=
  !rootLabelSkip line && lineName line != ""

/-- Frame depths strictly decrease from the top of the stack (the head)
to the bottom, i.e. strictly increase bottom-to-top. -/
def StackSorted {δ : Type} [LinearOrder δ] (stk : List (Frame δ)) : Prop :=
  List.Pairwise (fun a b : δ => b < a) (stk.map Frame.depth)

/-! ### Tree mutation: `deleteItem` (FileExplorer.tsx, lines 55-66) -/

mutual
/-- The body of the `map` in `filterNodes`: rebuild a kept node with
recursively filtered children (`children: node.children ?
filterNodes(node.children) : undefined`). -/
def filterNode (itemId : String) : FileNode → FileNode
  | .file i nm c p => .file i nm c p
  | .folder i nm cs p => .folder i nm (filterNodes itemId cs) p
/-- `nodes.filter(node => node.id !== itemId).map(...)`. -/
def filterNodes (itemId : String) : List FileNode → List FileNode
  | [] => []
  | n :: ns =>
      (if n.id == itemId then [] else [filterNode itemId n]) ++ filterNodes itemId ns
end

mutual
/-- Whether a node with the given id occurs anywhere in the tree. -/
def nodeHasId (i : String) : FileNode → Bool
  | .file j _ _ _ => j == i
  | .folder j _ cs _ => j == i || forestHasId i cs
def forestHasId (i : String) : List FileNode → Bool
  | [] => false
  | n :: ns => nodeHasId i n || forestHasId i ns
end

/-- `deleteItem` (lines 55-66): the new tree and the new selection — the
selection is cleared when the deleted id is the selected node's
(`if (selectedFile?.id === itemId) setSelectedFile(null)`). -/
def deleteItem (fileTree : List FileNode) (selectedFile : Option FileNode)
    (itemId : String) : List FileNode × Option FileNode :=
  (filterNodes itemId fileTree,
   if selectedFile.map FileNode.id == some itemId then none else selectedFile)

/-! ### Flattener: `getFilesForHFUpload` (ExportPanel, part_002 lines 143-160) -/

/-- `basePath ? basePath + "/" + name : name`. -/
def joinPath (basePath name : String) : String :=
  if basePath == "" then name else basePath ++ "/" ++ name

mutual
/-- The `forEach` body for one node. A file emits `(fullPath, content)`,
with `content || "// name\n// Auto-generated file"` — the stub fires on an
empty (JS-falsy) content string. A folder with children recurses; an empty
folder emits the `.gitkeep` sentinel instead. -/
def hfFilesOfNode (basePath : String) : FileNode → List (String × String)
  | .file _ nm c _ =>
      [(joinPath basePath nm,
        if c == "" then "// " ++ nm ++ "\n// Auto-generated file" else c)]
  | .folder _ nm cs _ =>
      if cs.length > 0 then getFilesForHFUpload cs (joinPath basePath nm)
      else [(joinPath basePath nm ++ "/.gitkeep", "")]
def getFilesForHFUpload : List FileNode → String → List (String × String)
  | [], _ => []
  | n :: ns, basePath => hfFilesOfNode basePath n ++ getFilesForHFUpload ns basePath
end

/-! ### JSON export (`downloadAsJson`, part_001 lines 98-116)

`downloadAsJson` writes `JSON.stringify(fileTree, null, 2)`. The document
is modelled at the level of JSON values (the text layer — indentation and
string escaping — is a faithful bijection between values and well-formed
documents and carries no information about the forest). `JSON.stringify`
emits an object's keys in insertion order and drops `undefined` members, so
a node serializes to `id, name, type`, then `content` (file) or `children`
(folder), then `parent` when present — the spec's canonical key order. -/

inductive Json : Type where
  | str (s : String)
  | arr (elems : List Json)
  | obj (fields : List (String × Json))
deriving Repr

def parentField (p : Option String) : List (String × Json) :=
  match p with
  | none => []
  | some q => [("parent", .str q)]

mutual
def fileNodeToJson : FileNode → Json
  | .file i nm c p =>
      .obj ([("id", .str i), ("name", .str nm), ("type", .str "file"),
             ("content", .str c)] ++ parentField p)
  | .folder i nm cs p =>
      .obj ([("id", .str i), ("name", .str nm), ("type", .str "folder"),
             ("children", .arr (forestToJson cs))] ++ parentField p)
def forestToJson : List FileNode → List Json
  | [] => []
  | n :: ns => fileNodeToJson n :: forestToJson ns
end

mutual
/-- Modelled from the spec: the repository has no loader for the exported
document, but §6 requires the canonical JSON serialization (stable key
order: id, name, type, content, children) to "round-trip losslessly back
into the same forest shape". This reader parses exactly that canonical
layout back into a node. -/
def fileNodeFromJson : Json → Option FileNode
  | .obj (("id", .str i) :: ("name", .str nm) :: ("type", .str "file")
      :: ("content", .str c) :: rest) =>
      match rest with
      | [] => some (.file i nm c none)
      | [("parent", .str p)] => some (.file i nm c (some p))
      | _ => none
  | .obj (("id", .str i) :: ("name", .str nm) :: ("type", .str "folder")
      :: ("children", .arr js) :: rest) =>
      match forestFromJson js with
      | some cs =>
          match rest with
          | [] => some (.folder i nm cs none)
          | [("parent", .str p)] => some (.folder i nm cs (some p))
          | _ => none
      | none => none
  | _ => none
/-- Modelled from the spec: elementwise reader for a serialized forest. -/
def forestFromJson : List Json → Option (List FileNode)
  | [] => some []
  | j :: js =>
      match fileNodeFromJson j, forestFromJson js with
      | some n, some ns => some (n :: ns)
      | _, _ => none
end

/-! ### Space upload retry loop (`uploadWithRetry`, part_002 lines 342-382)

The loop is simulated against an abstract remote: `statuses t` is the HTTP
status the `fetch` of attempt `t` resolves to, and `errBody` is the
`error` field of the last response's JSON body (`none` when the body has
no such field or does not parse — the source's `catch` leaves `errObj`
empty then). `RetryResult` records what the loop did: how many attempts
ran, the sleeps performed between attempts in order, and the error message
thrown (or `none` on success). -/

def resOk (status : Nat) : Bool := 200 ≤ status && status ≤ 299

structure RetryResult where
  attempts : Nat
  slept : List ℚ
  err : Option String
deriving Repr

/-- The thrown message when `errObj` has no `error` field (part_002 lines
376-381). -/
def uploadFailMessage (path : String) (status : Nat) : String :=
  "Failed to upload: " ++ path ++ ". Status " ++ toString status ++
    ". If this is your FIRST upload to a new Space, it can take up to a minute for provisioning. " ++
    "If this keeps failing, wait and try again."

/-- The `for (let t = 0; t < tries; t++)` loop. Only a 404 that is not the
final attempt retries (`res.status === 404 && t < tries - 1`, which for
natural `tries` is `t + 1 < tries`); the delay starts at 2000 ms and each
retry multiplies it by 1.25 = 5/4 capped at 5000 ms
(`delay = Math.min(delay * 1.25, 5000)`). Any other failure breaks at
once, and the loop then throws. -/
def retryGo (statuses : Nat → Nat) (errBody : Option String) (path : String)
    (tries : Nat) : Nat → ℚ → List ℚ → Option Nat → RetryResult
  | t, delay, slept, lastErr =>
    if t < tries then
      let s := statuses t
      if resOk s then ⟨t + 1, slept, none⟩
      else if s = 404 ∧ t + 1 < tries then
        retryGo statuses errBody path tries (t + 1) (min (delay * (5/4)) 5000)
          (slept ++ [delay]) (some s)
      else ⟨t + 1, slept, some (errBody.getD (uploadFailMessage path s))⟩
    else
      ⟨t, slept,
        some (match lastErr with
          | some s => errBody.getD (uploadFailMessage path s)
          | none => "TypeError: lastErr is undefined")⟩
termination_by t _ _ _ => tries - t
decreasing_by omega

/-- `uploadWithRetry(file, tries = 10)`: run the retry loop from attempt 0
with the initial 2000 ms delay. -/
def uploadWithRetry (statuses : Nat → Nat) (errBody : Option String)
    (path : String) (tries : Nat := 10) : RetryResult :=
  retryGo statuses errBody path tries 0 2000 [] none

/-! ### The C3 claim's skip predicate

Modelled from the spec's words for comparison with the source's
`rootLabelSkip`: a line containing `/` with no leading space and no
box-drawing prefix — reading "box-drawing prefix" as any of the four
glyphs `├ └ │ ─` at the start of the line. -/

def specRootLabelSkip (line : String) : Bool :=
  line.data.contains '/' && !(startsWithChar line ' ')
    && !(startsWithChar line '├') && !(startsWithChar line '└')
    && !(startsWithChar line '│') && !(startsWithChar line '─')

/-- The tree listing of claim C1 / spec §8 property 2. -/
def c1Input : String := "app/\n├── main.py\n└── sub/\n    └── deep.py"

/-- The node value `n` occurs somewhere in the parser state: in a finished
root, or among the children collected by some open frame (at any depth). -/
def StateOccurs {δ : Type} (n : FileNode) (res : List FileNode)
    (stk : List (Frame δ)) : Prop :=
  OccursForest n res ∨ ∃ f ∈ stk, OccursForest n f.children

/-- `f'` is a later evolution of the open frame `f`: same identity, with
the children collected so far extended only at the end. -/
def FrameLe {δ δ' : Type} (f : Frame δ) (f' : Frame δ') : Prop :=
  f'.id = f.id ∧ f'.name = f.name ∧ f'.parent = f.parent ∧
    f.children <+: f'.children

/-- `m` is the finished node of an evolution of the open frame `f`. -/
def FrameRealizes {δ : Type} (f : Frame δ) (m : FileNode) : Prop :=
  m.id = f.id ∧ m.name = f.name ∧ m.parentId = f.parent ∧
    f.children <+: m.childList

/-- The forest obtained by processing further lines from a mid-parse state
and closing every remaining frame (`parseStructure` is
`parseAfter (initState ℚ) (linesOf text)`). -/
def parseAfter (st : ParserState ℚ) (ls : List String) : List FileNode :=
  flushFrames (runLinesG lineDepth st ls).result (runLinesG lineDepth st ls).stack

/-! ## Theorems

### The scaled mirror computes the source model

Dividing by the positive constant 4 is an order embedding `ℤ → ℚ`, so the
parser comparing scaled depths takes exactly the branches of the parser
comparing the source's rational depths. -/

theorem qOfScaled_le_iff (a b : ℤ) : qOfScaled a ≤ qOfScaled b ↔ a ≤ b := by
  unfold qOfScaled
  rw [div_le_div_iff_of_pos_right (by norm_num : (0 : ℚ) < 4)]
  exact Int.cast_le

theorem lineDepth_eq (line : String) :
    lineDepth line = qOfScaled (lineDepthScaled line) := by
  unfold lineDepth lineDepthScaled qOfScaled
  push_cast
  ring

theorem collapseFrames_mapDepth {δ δ' : Type} (g : δ → δ') (f : Frame δ)
    (fs : List (Frame δ)) :
    collapseFrames (f.mapDepth g) (fs.map (Frame.mapDepth g)) = collapseFrames f fs := by
  induction fs generalizing f with
  | nil => rfl
  | cons gfr gs ih =>
      simp only [List.map_cons, collapseFrames]
      exact ih { gfr with children := gfr.children ++ [f.close] }

theorem Frame.id_comp_mapDepth {δ δ' : Type} (g : δ → δ') :
    Frame.id ∘ Frame.mapDepth g = (Frame.id : Frame δ → String) := rfl

theorem attachNode_mapDepth {δ δ' : Type} (g : δ → δ') (res : List FileNode)
    (stk : List (Frame δ)) (n : FileNode) :
    attachNode res (stk.map (Frame.mapDepth g)) n =
      ((attachNode res stk n).1, (attachNode res stk n).2.map (Frame.mapDepth g)) := by
  cases stk <;> simp [attachNode, Frame.mapDepth]

theorem popGE_mapDepth {δ δ' : Type} [LinearOrder δ] [LinearOrder δ'] (g : δ → δ')
    (hg : ∀ a b, g a ≤ g b ↔ a ≤ b) (d : δ) (res : List FileNode)
    (stk : List (Frame δ)) :
    popGE (g d) res (stk.map (Frame.mapDepth g)) =
      ((popGE d res stk).1, (popGE d res stk).2.map (Frame.mapDepth g)) := by
  unfold popGE
  have hpred : (fun f : Frame δ' => decide (g d ≤ f.depth)) ∘ Frame.mapDepth g =
      fun f : Frame δ => decide (d ≤ f.depth) := by
    funext f
    simp [Frame.mapDepth, hg]
  rw [List.takeWhile_map, List.dropWhile_map, hpred]
  cases htw : stk.takeWhile (fun f => decide (d ≤ f.depth)) with
  | nil => simp
  | cons f fs =>
      simp only [List.map_cons, collapseFrames_mapDepth, attachNode_mapDepth]

theorem processLineG_mapDepth {δ δ' : Type} [LinearOrder δ] [LinearOrder δ']
    (g : δ → δ') (hg : ∀ a b, g a ≤ g b ↔ a ≤ b) (depthOf : String → δ)
    (st : ParserState δ) (line : String) :
    processLineG (fun l => g (depthOf l)) (st.mapDepth g) line =
      (processLineG depthOf st line).mapDepth g := by
  unfold processLineG
  by_cases h1 : rootLabelSkip line
  · simp [h1]
  by_cases h2 : lineName line == ""
  · simp [h1, h2]
  simp only [h1, h2, Bool.false_eq_true, if_false, if_true, ParserState.mapDepth]
  rw [popGE_mapDepth g hg]
  by_cases h3 : lineIsFolder line
  · simp [h3, ParserState.mapDepth, List.head?_map, Option.map_map,
      Frame.id_comp_mapDepth, Frame.mapDepth]
  · simp [h3, ParserState.mapDepth, List.head?_map, Option.map_map,
      Frame.id_comp_mapDepth, attachNode_mapDepth, Frame.mapDepth]

theorem runLinesG_mapDepth {δ δ' : Type} [LinearOrder δ] [LinearOrder δ']
    (g : δ → δ') (hg : ∀ a b, g a ≤ g b ↔ a ≤ b) (depthOf : String → δ)
    (ls : List String) (st : ParserState δ) :
    runLinesG (fun l => g (depthOf l)) (st.mapDepth g) ls =
      (runLinesG depthOf st ls).mapDepth g := by
  induction ls generalizing st with
  | nil => rfl
  | cons l ls ih =>
      unfold runLinesG at *
      simp only [List.foldl_cons]
      rw [processLineG_mapDepth g hg, ih]

theorem flushFrames_mapDepth {δ δ' : Type} (g : δ → δ') (res : List FileNode)
    (stk : List (Frame δ)) :
    flushFrames res (stk.map (Frame.mapDepth g)) = flushFrames res stk := by
  cases stk with
  | nil => rfl
  | cons f fs => simp [flushFrames, collapseFrames_mapDepth]

/-- The source's parser (rational depths) and the executable mirror
(scaled integer depths) return the same forest on every input. -/
theorem parseStructureZ_eq (text : String) :
    parseStructure text = parseStructureZ text := by
  unfold parseStructure parseStructureZ
  have hd : lineDepth = fun l => qOfScaled (lineDepthScaled l) := funext lineDepth_eq
  have hini : initState ℚ = (initState ℤ).mapDepth qOfScaled := rfl
  rw [hd, hini, runLinesG_mapDepth qOfScaled qOfScaled_le_iff]
  exact flushFrames_mapDepth qOfScaled _ _

/-! ### C1: the `app/` depth-inference example (corrected)

The first line `app/` contains `/`, has no leading space and starts with
neither `├` nor `└`, so line 23 of StructureImporter.tsx discards it as a
decorative root label. No `app` node is ever created: `main.py` and `sub`
become forest roots, and `deep.py` is the only child of `sub`. -/

/-- C1 counterexample: on the listing `app/`, `├── main.py`, `└── sub/`,
`    └── deep.py`, the parsed forest's roots are `main.py` and `sub`, and
no node named `app` exists at any depth — refuting that `main.py` and
`sub` are children of `app` and that `app` has exactly two children. -/
theorem c1_counterexample :
    (parseStructure c1Input).map FileNode.name = ["main.py", "sub"] ∧
    forestNames (parseStructure c1Input) = ["main.py", "sub", "deep.py"] ∧
    "app" ∉ forestNames (parseStructure c1Input) := by
  rw [parseStructureZ_eq]
  refine ⟨by decide, by decide, by decide⟩

/-- C1 amended: parsing the listing discards the `app/` line as a
decorative root label; `main.py` (a file with the `.py` stub) and `sub`
are the two forest roots, and `deep.py` is the only child of `sub`. Node
ids are the embedding's deterministic stand-ins for the source's opaque
unique ids. -/
theorem c1_parse_shape :
    parseStructure c1Input =
      [.file "0" "main.py" "# main.py\n# TODO: Implement functionality" none,
       .folder "1" "sub"
         [.file "2" "deep.py" "# deep.py\n# TODO: Implement functionality" (some "1")]
         none] := by
  rw [parseStructureZ_eq]
  exact rfl

/-! ### C3: the root-label skip predicate (corrected)

Line 23 tests only `├` and `└` as protecting prefixes; a line starting
with the box-drawing glyphs `│` or `─` that contains `/` and no leading
space is still discarded, contrary to the claim's four-glyph reading. -/

/-- C3 counterexample: the line `│x/` has a box-drawing prefix (`│`), yet
the source's predicate discards it (and parsing it yields no node), while
the claim's predicate — no `├ └ │ ─` at the start — would keep it. -/
theorem c3_counterexample :
    rootLabelSkip "│x/" = true ∧ specRootLabelSkip "│x/" = false ∧
    parseStructure "│x/" = [] := by
  refine ⟨by decide, by decide, ?_⟩
  rw [parseStructureZ_eq]
  exact rfl

/-! ### C4: depth is exact division, not integer division (corrected) -/

/-- C4 counterexample: for the line `"  x"` (two leading spaces), the
computed depth is the non-integral rational 1/2; it differs from the
integer division `(3 - 1) / 4 = 0` and is not an integer. -/
theorem c4_counterexample :
    lineDepth "  x" = 1/2 ∧ (∀ n : ℤ, lineDepth "  x" ≠ (n : ℚ)) ∧
    lineDepth "  x" ≠ ((2 / 4 : ℤ) : ℚ) := by
  have hs : lineDepthScaled "  x" = 2 := by decide
  have hd : lineDepth "  x" = 1/2 := by
    rw [lineDepth_eq, hs]
    norm_num [qOfScaled]
  refine ⟨hd, ?_, ?_⟩
  · intro n h
    rw [hd] at h
    have h2 : (1 : ℚ) = 2 * (n : ℚ) := by linarith
    have h3 : (1 : ℤ) = 2 * n := by exact_mod_cast h2
    omega
  · rw [hd]
    norm_num

/-- C4 amended: for every line the source computes the depth as the exact
rational `(original_length - trimmed_length) / 4` (so `depth * 4` recovers
the character difference), and that depth is an integer exactly when the
stripped-prefix length is a multiple of 4. -/
theorem c4_depth_exact :
    (∀ line : String, lineDepth line * 4 =
        (line.length : ℚ) - ((trimmedOf line).length : ℚ)) ∧
    (∀ line : String,
        (∃ n : ℤ, lineDepth line = (n : ℚ)) ↔ (4 : ℤ) ∣ lineDepthScaled line) := by
  constructor
  · intro line
    unfold lineDepth
    rw [div_mul_cancel₀]
    norm_num
  · intro line
    rw [lineDepth_eq]
    unfold qOfScaled
    constructor
    · rintro ⟨n, hn⟩
      refine ⟨n, ?_⟩
      have h4 : (lineDepthScaled line : ℚ) = 4 * (n : ℚ) := by
        field_simp at hn
        linarith [hn]
      exact_mod_cast h4
    · rintro ⟨k, hk⟩
      refine ⟨k, ?_⟩
      rw [hk]
      push_cast
      ring

/-! ### Node accounting: every line contributes one node or is skipped -/

theorem forestCount_append (xs ys : List FileNode) :
    forestCount (xs ++ ys) = forestCount xs + forestCount ys := by
  induction xs with
  | nil => simp [forestCount]
  | cons n ns ih => simp [forestCount, ih]; omega

theorem framesCount_append {δ : Type} (xs ys : List (Frame δ)) :
    framesCount (xs ++ ys) = framesCount xs + framesCount ys := by
  induction xs with
  | nil => simp [framesCount]
  | cons f fs ih => simp [framesCount, ih]; omega

theorem attachNode_count {δ : Type} (res : List FileNode) (stk : List (Frame δ))
    (n : FileNode) :
    forestCount (attachNode res stk n).1 + framesCount (attachNode res stk n).2 =
      (forestCount res + framesCount stk) + nodeCount n := by
  cases stk with
  | nil => simp [attachNode, forestCount_append, forestCount, framesCount]
  | cons g gs =>
      simp [attachNode, framesCount, forestCount_append, forestCount]
      omega

theorem collapseFrames_count {δ : Type} (f : Frame δ) (fs : List (Frame δ)) :
    nodeCount (collapseFrames f fs) = (1 + forestCount f.children) + framesCount fs := by
  induction fs generalizing f with
  | nil => simp [collapseFrames, Frame.close, nodeCount, framesCount]
  | cons g gs ih =>
      simp [collapseFrames, ih, framesCount, forestCount_append, forestCount,
        nodeCount, Frame.close]
      omega

theorem popGE_count {δ : Type} [LinearOrder δ] (d : δ) (res : List FileNode)
    (stk : List (Frame δ)) :
    forestCount (popGE d res stk).1 + framesCount (popGE d res stk).2 =
      forestCount res + framesCount stk := by
  have hsplit := List.takeWhile_append_dropWhile
    (p := fun f : Frame δ => decide (d ≤ f.depth)) (l := stk)
  unfold popGE
  cases htw : stk.takeWhile (fun f => decide (d ≤ f.depth)) with
  | nil =>
      rw [htw, List.nil_append] at hsplit
      simp [hsplit]
  | cons f fs =>
      rw [htw] at hsplit
      conv_rhs => rw [← hsplit]
      rw [framesCount_append, attachNode_count, collapseFrames_count]
      simp [framesCount]
      omega

theorem processLineG_count {δ : Type} [LinearOrder δ] (depthOf : String → δ)
    (st : ParserState δ) (line : String) :
    stateCount (processLineG depthOf st line) =
      stateCount st + (if contributesLine line then 1 else 0) := by
  unfold processLineG
  by_cases h1 : rootLabelSkip line
  · simp [contributesLine, h1]
  by_cases h2 : lineName line = ""
  · simp [contributesLine, h1, h2]
  have h2b : (lineName line == "") = false := by simp [h2]
  have hcontrib : contributesLine line = true := by
    simp [contributesLine, h1, h2]
  simp only [h1, h2b, hcontrib, Bool.false_eq_true, if_false, if_true]
  have hpop := popGE_count (depthOf line) st.result st.stack
  by_cases h3 : lineIsFolder line
  · simp [h3, stateCount, framesCount, forestCount]
    omega
  · simp only [h3, Bool.false_eq_true, if_false]
    have hatt := attachNode_count (popGE (depthOf line) st.result st.stack).1
      (popGE (depthOf line) st.result st.stack).2
      (FileNode.file (toString st.counter) (lineName line)
        (defaultContent (lineName line))
        (Option.map Frame.id (popGE (depthOf line) st.result st.stack).2.head?))
    simp only [nodeCount] at hatt
    simp [stateCount]
    omega

theorem runLinesG_count {δ : Type} [LinearOrder δ] (depthOf : String → δ)
    (ls : List String) (st : ParserState δ) :
    stateCount (runLinesG depthOf st ls) =
      stateCount st + (ls.filter contributesLine).length := by
  induction ls generalizing st with
  | nil => simp [runLinesG]
  | cons l ls ih =>
      unfold runLinesG at *
      simp only [List.foldl_cons]
      rw [ih, processLineG_count]
      by_cases h : contributesLine l
      · simp [h]
        omega
      · simp [h]

theorem flushFrames_count {δ : Type} (res : List FileNode) (stk : List (Frame δ)) :
    forestCount (flushFrames res stk) = forestCount res + framesCount stk := by
  cases stk with
  | nil => simp [flushFrames, framesCount]
  | cons f fs =>
      simp [flushFrames, forestCount_append, forestCount, collapseFrames_count,
        framesCount]

/-! ### C5: the parser is total and accounts for every line (confirmed)

`parseStructure` is a total Lean function — it returns a forest on every
string, malformed or not, and the embedding has no failure path to model
because the source has none. The substantive half of the claim is the
accounting: each non-blank line contributes exactly one node unless it is
skipped (as a root label, or because its cleaned name is empty). -/

/-- C5: the number of nodes in the parsed forest (over all nesting depths)
equals the number of non-blank input lines that are neither discarded as
root labels nor empty after cleaning — every line contributes exactly one
node or is silently skipped, on every input string. -/
theorem c5_total_node_accounting (text : String) :
    forestCount (parseStructure text) =
      ((linesOf text).filter contributesLine).length := by
  unfold parseStructure
  rw [flushFrames_count]
  have h := runLinesG_count lineDepth (linesOf text) (initState ℚ)
  unfold stateCount at h
  simp only [initState] at h ⊢
  simp only [framesCount, forestCount, Nat.add_zero, Nat.zero_add] at h
  omega

/-- C5 witness-style sanity check on a concrete input: five raw lines, of
which one is blank, one is a root label and one cleans to nothing. -/
theorem c5_example :
    forestCount (parseStructure "app/\n├── a.py\n\n├──\n└── b.md") = 2 := by
  rw [parseStructureZ_eq]
  decide

/-- C3 amended: line 23 discards exactly the lines that contain `/`, have
no leading space, and start with neither `├` nor `└` — a leading `│` or
`─` does not protect a line. A skipped line leaves the parser state
unchanged, as does a line whose cleaned name is empty; every other line
contributes exactly one node (`stateCount` counts finished nodes plus
nodes owed by open frames). -/
theorem c3_skip_characterization :
    (∀ line : String,
        rootLabelSkip line =
          (line.data.contains '/' && !(startsWithChar line ' ')
            && !(startsWithChar line '├') && !(startsWithChar line '└'))) ∧
    (∀ (st : ParserState ℚ) (line : String),
        (rootLabelSkip line = true → processLineG lineDepth st line = st) ∧
        (lineName line = "" → processLineG lineDepth st line = st) ∧
        (rootLabelSkip line = false → lineName line ≠ "" →
          stateCount (processLineG lineDepth st line) = stateCount st + 1)) := by
  refine ⟨fun line => rfl, fun st line => ⟨?_, ?_, ?_⟩⟩
  · intro h
    unfold processLineG
    simp [h]
  · intro h
    unfold processLineG
    split
    · rfl
    · simp [h]
  · intro h1 h2
    rw [processLineG_count]
    simp [contributesLine, h1, h2]

/-! ### C10: the frame stack is strictly sorted by depth (confirmed) -/

theorem attachNode_stack_depths {δ : Type} (res : List FileNode)
    (stk : List (Frame δ)) (n : FileNode) :
    ((attachNode res stk n).2).map Frame.depth = stk.map Frame.depth := by
  cases stk <;> simp [attachNode]

theorem popGE_stack_depths {δ : Type} [LinearOrder δ] (d : δ)
    (res : List FileNode) (stk : List (Frame δ)) :
    ((popGE d res stk).2).map Frame.depth =
      (stk.dropWhile (fun f => decide (d ≤ f.depth))).map Frame.depth := by
  unfold popGE
  cases htw : stk.takeWhile (fun f => decide (d ≤ f.depth)) with
  | nil => rfl
  | cons f fs => simp [attachNode_stack_depths]

theorem popGE_head_lt {δ : Type} [LinearOrder δ] (d : δ) (res : List FileNode)
    (stk : List (Frame δ)) (f : Frame δ)
    (hf : ((popGE d res stk).2).head? = some f) : f.depth < d := by
  have hd := congrArg List.head? (popGE_stack_depths d res stk)
  rw [List.head?_map, List.head?_map, hf] at hd
  cases hh : (stk.dropWhile (fun fr => decide (d ≤ fr.depth))).head? with
  | none =>
      rw [hh] at hd
      exact absurd hd (by simp)
  | some g =>
      rw [hh] at hd
      have hfg : f.depth = g.depth := by simpa using hd
      have hnot : decide (d ≤ g.depth) = false := by
        have hw := List.head?_dropWhile_not (fun fr : Frame δ => decide (d ≤ fr.depth)) stk
        rw [hh] at hw
        exact hw
      rw [hfg]
      exact lt_of_not_le (by simpa using hnot)

theorem dropWhile_all_lt {α : Type} [LinearOrder α] (d : α) (l : List α)
    (h : List.Pairwise (fun a b : α => b < a) l) :
    ∀ x ∈ l.dropWhile (fun a => decide (d ≤ a)), x < d := by
  induction l with
  | nil => simp
  | cons a as ih =>
      intro x hx
      rw [List.dropWhile_cons] at hx
      by_cases ha : d ≤ a
      · rw [if_pos (by simpa using ha)] at hx
        exact ih (List.pairwise_cons.mp h).2 x hx
      · rw [if_neg (by simpa using ha)] at hx
        rcases List.mem_cons.mp hx with rfl | hx
        · exact lt_of_not_le ha
        · exact lt_trans ((List.pairwise_cons.mp h).1 x hx) (lt_of_not_le ha)

theorem stack_depths_dropWhile {δ : Type} [LinearOrder δ] (d : δ)
    (stk : List (Frame δ)) :
    (stk.dropWhile (fun fr => decide (d ≤ fr.depth))).map Frame.depth =
      (stk.map Frame.depth).dropWhile (fun a => decide (d ≤ a)) := by
  rw [List.dropWhile_map]
  rfl

theorem popGE_all_lt {δ : Type} [LinearOrder δ] (d : δ) (res : List FileNode)
    (stk : List (Frame δ)) (h : StackSorted stk) :
    ∀ f ∈ (popGE d res stk).2, f.depth < d := by
  intro f hf
  have hmem : f.depth ∈ ((popGE d res stk).2).map Frame.depth :=
    List.mem_map_of_mem _ hf
  rw [popGE_stack_depths, stack_depths_dropWhile] at hmem
  exact dropWhile_all_lt d _ h _ hmem

theorem popGE_sorted {δ : Type} [LinearOrder δ] (d : δ) (res : List FileNode)
    (stk : List (Frame δ)) (h : StackSorted stk) :
    StackSorted (popGE d res stk).2 := by
  unfold StackSorted at *
  rw [popGE_stack_depths, stack_depths_dropWhile]
  exact h.sublist (List.dropWhile_sublist _)

theorem processLineG_sorted {δ : Type} [LinearOrder δ] (depthOf : String → δ)
    (st : ParserState δ) (line : String) (h : StackSorted st.stack) :
    StackSorted (processLineG depthOf st line).stack := by
  unfold processLineG
  by_cases h1 : rootLabelSkip line
  · simpa [h1] using h
  by_cases h2 : lineName line = ""
  · simpa [h1, h2] using h
  have h2b : (lineName line == "") = false := by simp [h2]
  simp only [h1, h2b, Bool.false_eq_true, if_false]
  by_cases h3 : lineIsFolder line
  · simp only [h3, if_true]
    unfold StackSorted
    simp only [List.map_cons]
    rw [List.pairwise_cons]
    refine ⟨?_, popGE_sorted _ _ _ h⟩
    intro b hb
    rcases List.mem_map.mp hb with ⟨fr, hfr, rfl⟩
    exact popGE_all_lt _ _ _ h fr hfr
  · simp only [h3, Bool.false_eq_true, if_false]
    unfold StackSorted
    rw [attachNode_stack_depths]
    exact popGE_sorted _ _ _ h

theorem runLinesG_sorted {δ : Type} [LinearOrder δ] (depthOf : String → δ)
    (ls : List String) (st : ParserState δ) (h : StackSorted st.stack) :
    StackSorted (runLinesG depthOf st ls).stack := by
  induction ls generalizing st with
  | nil => exact h
  | cons l ls ih => exact ih _ (processLineG_sorted depthOf st l h)

/-- C10: at every point of the parse (any line list, hence any prefix of
the input) the stack's recorded depths strictly increase from bottom to
top, and after the pop loop the frame a new node is attached under — the
stack's new top — always has recorded depth strictly less than the
incoming node's computed depth, so a node is never attached under a frame
of equal or deeper recorded depth. -/
theorem c10_stack_invariant :
    (∀ ls : List String,
        StackSorted (runLinesG lineDepth (initState ℚ) ls).stack) ∧
    (∀ (d : ℚ) (res : List FileNode) (stk : List (Frame ℚ)) (f : Frame ℚ),
        ((popGE d res stk).2).head? = some f → f.depth < d) := by
  constructor
  · intro ls
    refine runLinesG_sorted lineDepth ls (initState ℚ) ?_
    simp [initState, StackSorted]
  · intro d res stk f hf
    exact popGE_head_lt d res stk f hf

/-! ### C8: deletion removes the id at every depth and clears selection -/

theorem forestHasId_append (i : String) (xs ys : List FileNode) :
    forestHasId i (xs ++ ys) = (forestHasId i xs || forestHasId i ys) := by
  induction xs with
  | nil => simp [forestHasId]
  | cons n ns ih => simp [forestHasId, ih, Bool.or_assoc]

mutual
theorem nodeHasId_filterNode (i : String) (n : FileNode)
    (hn : (n.id == i) = false) : nodeHasId i (filterNode i n) = false := by
  cases n with
  | file j nm c p =>
      simp only [FileNode.id] at hn
      simp [filterNode, nodeHasId, hn]
  | folder j nm cs p =>
      simp only [FileNode.id] at hn
      simp [filterNode, nodeHasId, hn, forestHasId_filterNodes i cs]
theorem forestHasId_filterNodes (i : String) (ns : List FileNode) :
    forestHasId i (filterNodes i ns) = false := by
  cases ns with
  | nil => rfl
  | cons n ns =>
      unfold filterNodes
      by_cases h : (n.id == i) = true
      · simp [h, forestHasId_filterNodes i ns]
      · have hf : (n.id == i) = false := by simpa using h
        simp [hf, forestHasId, forestHasId_append,
          nodeHasId_filterNode i n hf, forestHasId_filterNodes i ns]
end

/-- C8: `deleteItem` removes every node carrying the deleted id, at every
nesting depth of the forest (no node with that id remains anywhere); kept
Folder nodes are rebuilt with recursively filtered children; and when the
currently selected node's id equals the deleted id the selection
reference is cleared. -/
theorem c8_delete_propagates (forest : List FileNode) (sel : Option FileNode)
    (i : String) :
    forestHasId i (deleteItem forest sel i).1 = false ∧
    (∀ n : FileNode, sel = some n → n.id = i → (deleteItem forest sel i).2 = none) ∧
    (∀ (j nm : String) (cs : List FileNode) (p : Option String),
        filterNode i (.folder j nm cs p) = .folder j nm (filterNodes i cs) p) := by
  refine ⟨forestHasId_filterNodes i forest, ?_, fun j nm cs p => rfl⟩
  rintro n rfl rfl
  simp [deleteItem]

/-! ### C6: the empty-folder `.gitkeep` sentinel (confirmed) -/

/-- C6: flattening a forest whose head is an empty Folder emits for that
folder exactly one entry — its joined path extended by `/.gitkeep`, with
empty content — followed by the flattening of the remaining nodes, while a
Folder with a non-empty `children` sequence contributes exactly the
flattening of its children under the extended path and no sentinel. (The
GitHub-target flattener `convertFileTreeToGitHubFiles`, part_002 lines
118-141, applies the identical empty-`children` rule.) -/
theorem c6_gitkeep_sentinel (b i nm : String) (p : Option String)
    (ns cs : List FileNode) (hcs : cs ≠ []) :
    getFilesForHFUpload (.folder i nm [] p :: ns) b =
      (joinPath b nm ++ "/.gitkeep", "") :: getFilesForHFUpload ns b ∧
    getFilesForHFUpload (.folder i nm cs p :: ns) b =
      getFilesForHFUpload cs (joinPath b nm) ++ getFilesForHFUpload ns b := by
  constructor
  · simp [getFilesForHFUpload, hfFilesOfNode]
  · have hlen : cs.length > 0 := List.length_pos.mpr hcs
    simp [getFilesForHFUpload, hfFilesOfNode, hlen]

/-- C6 witness: the sentinel equation at a concrete empty folder `models`
and the recursion equation at a concrete non-empty one. -/
theorem c6_gitkeep_sentinel_witness :
    getFilesForHFUpload (.folder "1" "models" [] none :: []) "" =
      (joinPath "" "models" ++ "/.gitkeep", "") :: getFilesForHFUpload [] "" ∧
    getFilesForHFUpload
        (.folder "1" "models" [.file "2" "a.py" "x" none] none :: []) "" =
      getFilesForHFUpload [.file "2" "a.py" "x" none] (joinPath "" "models") ++
        getFilesForHFUpload [] "" :=
  c6_gitkeep_sentinel "" "1" "models" none [] [.file "2" "a.py" "x" none] (by simp)

/-! ### C9: JSON export round-trips losslessly (reader modelled from spec) -/

mutual
theorem fileNodeFromJson_toJson (n : FileNode) :
    fileNodeFromJson (fileNodeToJson n) = some n := by
  cases n with
  | file i nm c p =>
      cases p with
      | none => rfl
      | some q => rfl
  | folder i nm cs p =>
      cases p with
      | none =>
          simp [fileNodeToJson, parentField, fileNodeFromJson,
            forestFromJson_toJson cs]
      | some q =>
          simp [fileNodeToJson, parentField, fileNodeFromJson,
            forestFromJson_toJson cs]
theorem forestFromJson_toJson (ns : List FileNode) :
    forestFromJson (forestToJson ns) = some ns := by
  cases ns with
  | nil => rfl
  | cons n ns =>
      simp [forestToJson, forestFromJson, fileNodeFromJson_toJson n,
        forestFromJson_toJson ns]
end

/-- C9: serializing a parse-produced forest to the canonical JSON document
(`JSON.stringify` key order, `undefined` members dropped) and parsing that
document back yields the identical forest — same ids, names, kinds,
contents, parent references, child structure and ordering at every
level. -/
theorem c9_json_roundtrip (text : String) :
    forestFromJson (forestToJson (parseStructure text)) =
      some (parseStructure text) :=
  forestFromJson_toJson (parseStructure text)

/-! ### C7: the Space-upload retry loop is bounded (confirmed) -/

theorem uploadFailMessage_mentions (path : String) (st : Nat) :
    path.data <:+: (uploadFailMessage path st).data ∧
    (toString st).data <:+: (uploadFailMessage path st).data := by
  unfold uploadFailMessage
  constructor
  · refine ⟨"Failed to upload: ".data,
      (". Status " ++ toString st ++
        ". If this is your FIRST upload to a new Space, it can take up to a minute for provisioning. " ++
        "If this keeps failing, wait and try again.").data, ?_⟩
    simp [String.data_append]
  · refine ⟨("Failed to upload: " ++ path ++ ". Status ").data,
      (". If this is your FIRST upload to a new Space, it can take up to a minute for provisioning. " ++
        "If this keeps failing, wait and try again.").data, ?_⟩
    simp [String.data_append]

/-- A non-404 failure at attempt `t` makes the loop break at once and
throw, regardless of the delay state. -/
theorem retryGo_abort (statuses : Nat → Nat) (eb : Option String) (path : String)
    (tries t : Nat) (delay : ℚ) (slept : List ℚ) (lastErr : Option Nat)
    (ht : t < tries) (hbad : resOk (statuses t) = false) (hs : statuses t ≠ 404) :
    retryGo statuses eb path tries t delay slept lastErr =
      ⟨t + 1, slept, some (eb.getD (uploadFailMessage path (statuses t)))⟩ := by
  rw [retryGo.eq_def]
  simp [ht, hbad, hs]

/-- If attempts `t..k-1` all answer 404 and attempt `k` fails with a
non-404 status, the loop stops after attempt `k + 1` in total and throws
the message for attempt `k`'s status. -/
theorem retryGo_reaches (statuses : Nat → Nat) (eb : Option String) (path : String)
    (tries k : Nat) (hk : k < tries)
    (hbad : resOk (statuses k) = false) (hs : statuses k ≠ 404) :
    ∀ (n t : Nat) (delay : ℚ) (slept : List ℚ) (lastErr : Option Nat),
      k - t = n → t ≤ k → (∀ u, t ≤ u → u < k → statuses u = 404) →
      (retryGo statuses eb path tries t delay slept lastErr).attempts = k + 1 ∧
      (retryGo statuses eb path tries t delay slept lastErr).err =
        some (eb.getD (uploadFailMessage path (statuses k))) := by
  intro n
  induction n with
  | zero =>
      intro t delay slept lastErr hn ht _h404
      have htk : t = k := by omega
      subst htk
      rw [retryGo_abort statuses eb path tries t delay slept lastErr hk hbad hs]
      exact ⟨rfl, rfl⟩
  | succ n ih =>
      intro t delay slept lastErr hn ht h404
      have htk : t < k := by omega
      have h404t : statuses t = 404 := h404 t le_rfl htk
      have ht2 : t < tries := by omega
      have hnext : t + 1 < tries := by omega
      have hstep : retryGo statuses eb path tries t delay slept lastErr =
          retryGo statuses eb path tries (t + 1) (min (delay * (5/4)) 5000)
            (slept ++ [delay]) (some 404) := by
        rw [retryGo.eq_def]
        norm_num [ht2, h404t, hnext, resOk]
      rw [hstep]
      exact ih (t + 1) _ _ _ (by omega) (by omega)
        (fun u hu1 hu2 => h404 u (by omega) hu2)

/-- C7: against a remote that answers 404 (with no JSON error body) on
every attempt, the loop performs exactly the configured 10 attempts,
sleeping 9 times with delays 2000, 2500, 3125, 3906.25, 4882.8125 and
then 5000 ms (the cap) — monotonically non-decreasing and never above
5000 — and then throws the message naming the file path and the last
status 404; and against a remote answering 404 until a non-404 failure
status arrives at attempt `k`, the loop aborts right there — `k + 1`
attempts in total — naming the path and that status. -/
theorem c7_retry_bounded (path : String) (statuses statuses2 : Nat → Nat)
    (h404 : ∀ t, statuses t = 404) (k : Nat) (hk : k < 10)
    (h404b : ∀ u, u < k → statuses2 u = 404)
    (hbad : resOk (statuses2 k) = false) (hs : statuses2 k ≠ 404) :
    (uploadWithRetry statuses none path).attempts = 10 ∧
    (uploadWithRetry statuses none path).slept =
      [2000, 2500, 3125, 3906.25, 4882.8125, 5000, 5000, 5000, 5000] ∧
    List.Chain' (fun a b : ℚ => a ≤ b) (uploadWithRetry statuses none path).slept ∧
    (∀ dly ∈ (uploadWithRetry statuses none path).slept, dly ≤ 5000) ∧
    (uploadWithRetry statuses none path).err =
      some (uploadFailMessage path 404) ∧
    path.data <:+: (uploadFailMessage path 404).data ∧
    (toString 404).data <:+: (uploadFailMessage path 404).data ∧
    (uploadWithRetry statuses2 none path).attempts = k + 1 ∧
    (uploadWithRetry statuses2 none path).err =
      some (uploadFailMessage path (statuses2 k)) := by
  have hrun : uploadWithRetry statuses none path =
      ⟨10, [2000, 2500, 3125, 3906.25, 4882.8125, 5000, 5000, 5000, 5000],
        some (uploadFailMessage path 404)⟩ := by
    unfold uploadWithRetry
    rw [retryGo]; norm_num [resOk, h404, min_def]
    rw [retryGo]; norm_num [resOk, h404, min_def]
    rw [retryGo]; norm_num [resOk, h404, min_def]
    rw [retryGo]; norm_num [resOk, h404, min_def]
    rw [retryGo]; norm_num [resOk, h404, min_def]
    rw [retryGo]; norm_num [resOk, h404, min_def]
    rw [retryGo]; norm_num [resOk, h404, min_def]
    rw [retryGo]; norm_num [resOk, h404, min_def]
    rw [retryGo]; norm_num [resOk, h404, min_def]
    rw [retryGo]; norm_num [resOk, h404, min_def]
  have habort := retryGo_reaches statuses2 none path 10 k hk hbad hs
    (k - 0) 0 2000 [] none rfl (Nat.zero_le k) (fun u _hu1 hu2 => h404b u hu2)
  refine ⟨by rw [hrun], by rw [hrun], ?_, ?_, by rw [hrun],
    (uploadFailMessage_mentions path 404).1,
    (uploadFailMessage_mentions path 404).2,
    habort.1, by simpa using habort.2⟩
  · rw [hrun]
    norm_num [List.chain'_cons]
  · rw [hrun]
    intro dly hdly
    simp only [List.mem_cons, List.not_mem_nil, or_false] at hdly
    rcases hdly with rfl | rfl | rfl | rfl | rfl | rfl | rfl | rfl | rfl <;> norm_num

/-- C7 witness: the bounded-retry conclusion at the concrete simulation
`statuses = fun attempt => 404`, `path = "app.py"`, abort status 500. -/
theorem c7_retry_bounded_witness :
    (uploadWithRetry (fun _ => 404) none "app.py").attempts = 10 :=
  (c7_retry_bounded "app.py" (fun _ => 404) (fun _ => 500) (fun _ => rfl) 0
    (by norm_num) (fun u hu => absurd hu (Nat.not_lt_zero u)) (by decide)
    (by decide)).1

/-! ### C2 machinery: node values persist into the final forest

In the functional model a node, once built, is an immutable value; these
lemmas track that a value occurring anywhere in the parser state (and the
eventual finished node of any open frame) reappears in the final forest. -/

theorem occursForest_append (n : FileNode) (xs ys : List FileNode) :
    OccursForest n (xs ++ ys) ↔ OccursForest n xs ∨ OccursForest n ys := by
  induction xs with
  | nil => simp [OccursForest]
  | cons m ms ih => simp [OccursForest, ih, or_assoc]

theorem occursNode_self (n : FileNode) : OccursNode n n := by
  cases n with
  | file i nm c p => exact rfl
  | folder i nm cs p => exact Or.inl rfl

theorem occursNode_close {δ : Type} (n : FileNode) (f : Frame δ)
    (h : OccursForest n f.children) : OccursNode n f.close := Or.inr h

theorem stateOccurs_attach_pres {δ : Type} (n : FileNode) (res : List FileNode)
    (stk : List (Frame δ)) (m : FileNode) (h : StateOccurs n res stk) :
    StateOccurs n (attachNode res stk m).1 (attachNode res stk m).2 := by
  cases stk with
  | nil =>
      rcases h with h | ⟨f, hf, _⟩
      · exact Or.inl ((occursForest_append n res [m]).mpr (Or.inl h))
      · cases hf
  | cons g gs =>
      rcases h with h | ⟨f, hf, hocc⟩
      · exact Or.inl h
      · rcases List.mem_cons.mp hf with rfl | hf2
        · refine Or.inr ⟨{ f with children := f.children ++ [m] },
            List.mem_cons_self _ _, ?_⟩
          exact (occursForest_append n f.children [m]).mpr (Or.inl hocc)
        · exact Or.inr ⟨f, List.mem_cons_of_mem _ hf2, hocc⟩

theorem stateOccurs_attach_node {δ : Type} (n : FileNode) (res : List FileNode)
    (stk : List (Frame δ)) (m : FileNode) (h : OccursNode n m) :
    StateOccurs n (attachNode res stk m).1 (attachNode res stk m).2 := by
  cases stk with
  | nil =>
      exact Or.inl ((occursForest_append n res [m]).mpr (Or.inr (Or.inl h)))
  | cons g gs =>
      refine Or.inr ⟨{ g with children := g.children ++ [m] },
        List.mem_cons_self _ _, ?_⟩
      exact (occursForest_append n g.children [m]).mpr (Or.inr (Or.inl h))

theorem occursNode_collapse {δ : Type} (n : FileNode) (f : Frame δ)
    (fs : List (Frame δ))
    (h : OccursForest n f.children ∨ ∃ g ∈ fs, OccursForest n g.children) :
    OccursNode n (collapseFrames f fs) := by
  induction fs generalizing f with
  | nil =>
      rcases h with h | ⟨g, hg, _⟩
      · exact occursNode_close n f h
      · exact absurd hg (List.not_mem_nil g)
  | cons g gs ih =>
      simp only [collapseFrames]
      apply ih
      rcases h with h | ⟨g2, hg2, hocc⟩
      · left
        show OccursForest n (g.children ++ [f.close])
        exact (occursForest_append n g.children [f.close]).mpr
          (Or.inr (Or.inl (occursNode_close n f h)))
      · rcases List.mem_cons.mp hg2 with rfl | hg3
        · left
          show OccursForest n (g2.children ++ [f.close])
          exact (occursForest_append n g2.children [f.close]).mpr (Or.inl hocc)
        · exact Or.inr ⟨g2, hg3, hocc⟩

theorem occursNode_collapse_head {δ : Type} (f : Frame δ) (fs : List (Frame δ)) :
    OccursNode f.close (collapseFrames f fs) := by
  cases fs with
  | nil => exact occursNode_self _
  | cons g gs =>
      simp only [collapseFrames]
      apply occursNode_collapse
      left
      show OccursForest f.close (g.children ++ [f.close])
      exact (occursForest_append _ g.children [f.close]).mpr
        (Or.inr (Or.inl (occursNode_self _)))

theorem stateOccurs_popGE {δ : Type} [LinearOrder δ] (d : δ) (n : FileNode)
    (res : List FileNode) (stk : List (Frame δ)) (h : StateOccurs n res stk) :
    StateOccurs n (popGE d res stk).1 (popGE d res stk).2 := by
  have hsplit := List.takeWhile_append_dropWhile
    (p := fun fr : Frame δ => decide (d ≤ fr.depth)) (l := stk)
  unfold popGE
  cases htw : stk.takeWhile (fun fr => decide (d ≤ fr.depth)) with
  | nil =>
      rw [htw, List.nil_append] at hsplit
      rw [hsplit]
      exact h
  | cons fh fs =>
      rw [htw] at hsplit
      rw [← hsplit] at h
      rcases h with h | ⟨f, hf, hocc⟩
      · exact stateOccurs_attach_pres n res _ _ (Or.inl h)
      · rcases List.mem_append.mp hf with hf1 | hf2
        · refine stateOccurs_attach_node n res _ _ ?_
          apply occursNode_collapse
          rcases List.mem_cons.mp hf1 with rfl | hf3
          · exact Or.inl hocc
          · exact Or.inr ⟨f, hf3, hocc⟩
        · exact stateOccurs_attach_pres n res _ _ (Or.inr ⟨f, hf2, hocc⟩)

theorem stateOccurs_consFrame {δ : Type} (n : FileNode) (res : List FileNode)
    (stk : List (Frame δ)) (f : Frame δ) (h : StateOccurs n res stk) :
    StateOccurs n res (f :: stk) := by
  rcases h with h | ⟨g, hg, hocc⟩
  · exact Or.inl h
  · exact Or.inr ⟨g, List.mem_cons_of_mem _ hg, hocc⟩

theorem stateOccurs_processLineG {δ : Type} [LinearOrder δ]
    (depthOf : String → δ) (st : ParserState δ) (line : String) (n : FileNode)
    (h : StateOccurs n st.result st.stack) :
    StateOccurs n (processLineG depthOf st line).result
      (processLineG depthOf st line).stack := by
  unfold processLineG
  by_cases h1 : rootLabelSkip line
  · simpa [h1] using h
  by_cases h2 : lineName line = ""
  · simpa [h1, h2] using h
  have h2b : (lineName line == "") = false := by simpa using h2
  simp only [h1, h2b, Bool.false_eq_true, if_false]
  have hpop := stateOccurs_popGE (depthOf line) n st.result st.stack h
  by_cases h3 : lineIsFolder line
  · simp only [h3, if_true]
    exact stateOccurs_consFrame n _ _ _ hpop
  · simp only [h3, Bool.false_eq_true, if_false]
    exact stateOccurs_attach_pres n _ _ _ hpop

theorem occursForest_flush {δ : Type} (n : FileNode) (res : List FileNode)
    (stk : List (Frame δ)) (h : StateOccurs n res stk) :
    OccursForest n (flushFrames res stk) := by
  cases stk with
  | nil =>
      rcases h with h | ⟨f, hf, _⟩
      · exact h
      · cases hf
  | cons f fs =>
      rcases h with h | ⟨g, hg, hocc⟩
      · exact (occursForest_append n res _).mpr (Or.inl h)
      · refine (occursForest_append n res _).mpr (Or.inr (Or.inl ?_))
        apply occursNode_collapse
        rcases List.mem_cons.mp hg with rfl | hg2
        · exact Or.inl hocc
        · exact Or.inr ⟨g, hg2, hocc⟩

theorem stateOccurs_final (ls : List String) (st : ParserState ℚ) (n : FileNode)
    (h : StateOccurs n st.result st.stack) :
    OccursForest n (parseAfter st ls) := by
  unfold parseAfter
  induction ls generalizing st with
  | nil => exact occursForest_flush n _ _ h
  | cons l ls ih =>
      unfold runLinesG at ih ⊢
      simp only [List.foldl_cons]
      exact ih _ (stateOccurs_processLineG lineDepth st l n h)

theorem frameLe_refl {δ : Type} (f : Frame δ) : FrameLe f f :=
  ⟨rfl, rfl, rfl, List.prefix_refl _⟩

theorem frameLe_extend {δ δ2 : Type} (f₀ : Frame δ) (g : Frame δ2)
    (xs : List FileNode) (h : FrameLe f₀ g) :
    FrameLe f₀ { g with children := g.children ++ xs } := by
  obtain ⟨h1, h2, h3, h4⟩ := h
  exact ⟨h1, h2, h3, h4.trans (List.prefix_append _ _)⟩

theorem frameRealizes_close {δ δ2 : Type} (f₀ : Frame δ) (f : Frame δ2)
    (h : FrameLe f₀ f) : FrameRealizes f₀ f.close := by
  obtain ⟨h1, h2, h3, h4⟩ := h
  exact ⟨h1, h2, h3, h4⟩

theorem collapse_realizes {δ δ2 : Type} (fs : List (Frame δ2)) (f fr : Frame δ2)
    (f₀ : Frame δ) (hmem : fr ∈ f :: fs) (hle : FrameLe f₀ fr) :
    ∃ m, OccursNode m (collapseFrames f fs) ∧ FrameRealizes f₀ m := by
  induction fs generalizing f fr with
  | nil =>
      rcases List.mem_singleton.mp hmem with rfl
      exact ⟨fr.close, occursNode_self _, frameRealizes_close f₀ fr hle⟩
  | cons g gs ih =>
      rcases List.mem_cons.mp hmem with heq | hmem2
      · subst heq
        exact ⟨fr.close, occursNode_collapse_head fr (g :: gs),
          frameRealizes_close f₀ fr hle⟩
      · rcases List.mem_cons.mp hmem2 with heq | hmem3
        · subst heq
          exact ih { fr with children := fr.children ++ [f.close] } _
            (List.mem_cons_self _ _) (frameLe_extend f₀ fr [f.close] hle)
        · exact ih { g with children := g.children ++ [f.close] } fr
            (List.mem_cons_of_mem _ hmem3) hle

theorem attach_frames {δ δ2 : Type} (res : List FileNode) (stk : List (Frame δ2))
    (m : FileNode) (f' : Frame δ2) (f₀ : Frame δ)
    (hmem : f' ∈ stk) (hle : FrameLe f₀ f') :
    ∃ f2 ∈ (attachNode res stk m).2, FrameLe f₀ f2 := by
  cases stk with
  | nil => cases hmem
  | cons g gs =>
      rcases List.mem_cons.mp hmem with heq | h2
      · subst heq
        exact ⟨{ f' with children := f'.children ++ [m] }, List.mem_cons_self _ _,
          frameLe_extend f₀ f' [m] hle⟩
      · exact ⟨f', List.mem_cons_of_mem _ h2, hle⟩

theorem popGE_frames {δ δ2 : Type} [LinearOrder δ2] (d : δ2)
    (res : List FileNode) (stk : List (Frame δ2)) (f' : Frame δ2) (f₀ : Frame δ)
    (hmem : f' ∈ stk) (hle : FrameLe f₀ f') :
    (∃ f2 ∈ (popGE d res stk).2, FrameLe f₀ f2) ∨
      (∃ m, StateOccurs m (popGE d res stk).1 (popGE d res stk).2 ∧
        FrameRealizes f₀ m) := by
  have hsplit := List.takeWhile_append_dropWhile
    (p := fun fr : Frame δ2 => decide (d ≤ fr.depth)) (l := stk)
  unfold popGE
  cases htw : stk.takeWhile (fun fr => decide (d ≤ fr.depth)) with
  | nil =>
      rw [htw, List.nil_append] at hsplit
      rw [hsplit]
      exact Or.inl ⟨f', hmem, hle⟩
  | cons fh fs =>
      rw [htw] at hsplit
      rw [← hsplit] at hmem
      rcases List.mem_append.mp hmem with hmem1 | hmem2
      · right
        obtain ⟨m, hocc, hreal⟩ := collapse_realizes fs fh f' f₀ hmem1 hle
        exact ⟨m, stateOccurs_attach_node m res _ _ hocc, hreal⟩
      · exact Or.inl (attach_frames res _ _ f' f₀ hmem2 hle)

theorem processLineG_frames {δ : Type} [LinearOrder ℚ]
    (depthOf : String → ℚ) (st : ParserState ℚ) (line : String) (f₀ : Frame δ)
    (h : (∃ f' ∈ st.stack, FrameLe f₀ f') ∨
        (∃ m, StateOccurs m st.result st.stack ∧ FrameRealizes f₀ m)) :
    (∃ f' ∈ (processLineG depthOf st line).stack, FrameLe f₀ f') ∨
      (∃ m, StateOccurs m (processLineG depthOf st line).result
          (processLineG depthOf st line).stack ∧ FrameRealizes f₀ m) := by
  unfold processLineG
  by_cases h1 : rootLabelSkip line
  · simpa [h1] using h
  by_cases h2 : lineName line = ""
  · simpa [h1, h2] using h
  have h2b : (lineName line == "") = false := by simpa using h2
  simp only [h1, h2b, Bool.false_eq_true, if_false]
  have hstep : (∃ f' ∈ (popGE (depthOf line) st.result st.stack).2, FrameLe f₀ f') ∨
      (∃ m, StateOccurs m (popGE (depthOf line) st.result st.stack).1
          (popGE (depthOf line) st.result st.stack).2 ∧ FrameRealizes f₀ m) := by
    rcases h with ⟨f', hmem, hle⟩ | ⟨m, hocc, hreal⟩
    · exact popGE_frames (depthOf line) st.result st.stack f' f₀ hmem hle
    · exact Or.inr ⟨m, stateOccurs_popGE (depthOf line) m _ _ hocc, hreal⟩
  by_cases h3 : lineIsFolder line
  · simp only [h3, if_true]
    rcases hstep with ⟨f', hmem, hle⟩ | ⟨m, hocc, hreal⟩
    · exact Or.inl ⟨f', List.mem_cons_of_mem _ hmem, hle⟩
    · exact Or.inr ⟨m, stateOccurs_consFrame m _ _ _ hocc, hreal⟩
  · simp only [h3, Bool.false_eq_true, if_false]
    rcases hstep with ⟨f', hmem, hle⟩ | ⟨m, hocc, hreal⟩
    · exact Or.inl (attach_frames _ _ _ f' f₀ hmem hle)
    · exact Or.inr ⟨m, stateOccurs_attach_pres m _ _ _ hocc, hreal⟩

theorem flush_realizes {δ δ2 : Type} (res : List FileNode)
    (stk : List (Frame δ2)) (f₀ : Frame δ)
    (h : ∃ f' ∈ stk, FrameLe f₀ f') :
    ∃ m, OccursForest m (flushFrames res stk) ∧ FrameRealizes f₀ m := by
  obtain ⟨f', hmem, hle⟩ := h
  cases stk with
  | nil => cases hmem
  | cons f fs =>
      obtain ⟨m, hocc, hreal⟩ := collapse_realizes fs f f' f₀ hmem hle
      exact ⟨m, (occursForest_append m res _).mpr (Or.inr (Or.inl hocc)), hreal⟩

theorem frames_final {δ : Type} (ls : List String) (st : ParserState ℚ)
    (f₀ : Frame δ)
    (h : (∃ f' ∈ st.stack, FrameLe f₀ f') ∨
        (∃ m, StateOccurs m st.result st.stack ∧ FrameRealizes f₀ m)) :
    ∃ m, OccursForest m (parseAfter st ls) ∧ FrameRealizes f₀ m := by
  unfold parseAfter
  induction ls generalizing st with
  | nil =>
      rcases h with hfr | ⟨m, hocc, hreal⟩
      · exact flush_realizes _ _ f₀ hfr
      · exact ⟨m, occursForest_flush m _ _ hocc, hreal⟩
  | cons l ls ih =>
      unfold runLinesG at ih ⊢
      simp only [List.foldl_cons]
      exact ih _ (processLineG_frames lineDepth st l f₀ h)

theorem popGE_top_popped {δ : Type} [LinearOrder δ] (d : δ)
    (res : List FileNode) (f : Frame δ) (fs : List (Frame δ)) (h : d ≤ f.depth) :
    StateOccurs f.close (popGE d res (f :: fs)).1 (popGE d res (f :: fs)).2 := by
  unfold popGE
  rw [List.takeWhile_cons, List.dropWhile_cons,
    if_pos (show decide (d ≤ f.depth) = true by simpa using h),
    if_pos (show decide (d ≤ f.depth) = true by simpa using h)]
  exact stateOccurs_attach_node _ res _ _ (occursNode_collapse_head f _)

theorem popGE_no_pop {δ : Type} [LinearOrder δ] (d : δ)
    (res : List FileNode) (f : Frame δ) (fs : List (Frame δ)) (h : ¬ d ≤ f.depth) :
    popGE d res (f :: fs) = (res, f :: fs) := by
  unfold popGE
  rw [List.takeWhile_cons, List.dropWhile_cons,
    if_neg (show ¬ decide (d ≤ f.depth) = true by simpa using h),
    if_neg (show ¬ decide (d ≤ f.depth) = true by simpa using h)]

theorem processLineG_folder {δ : Type} [LinearOrder δ] (depthOf : String → δ)
    (st : ParserState δ) (line : String)
    (h1 : rootLabelSkip line = false) (h2 : lineName line ≠ "")
    (h3 : lineIsFolder line = true) :
    processLineG depthOf st line =
      ⟨(popGE (depthOf line) st.result st.stack).1,
       ⟨toString st.counter, lineName line,
        ((popGE (depthOf line) st.result st.stack).2.head?).map Frame.id, [],
        depthOf line⟩ :: (popGE (depthOf line) st.result st.stack).2,
       st.counter + 1⟩ := by
  unfold processLineG
  have h2b : (lineName line == "") = false := by simpa using h2
  simp [h1, h2b, h3]

theorem processLineG_file {δ : Type} [LinearOrder δ] (depthOf : String → δ)
    (st : ParserState δ) (line : String)
    (h1 : rootLabelSkip line = false) (h2 : lineName line ≠ "")
    (h3 : lineIsFolder line = false) :
    processLineG depthOf st line =
      ⟨(attachNode (popGE (depthOf line) st.result st.stack).1
          (popGE (depthOf line) st.result st.stack).2
          (.file (toString st.counter) (lineName line)
            (defaultContent (lineName line))
            (((popGE (depthOf line) st.result st.stack).2.head?).map Frame.id))).1,
       (attachNode (popGE (depthOf line) st.result st.stack).1
          (popGE (depthOf line) st.result st.stack).2
          (.file (toString st.counter) (lineName line)
            (defaultContent (lineName line))
            (((popGE (depthOf line) st.result st.stack).2.head?).map Frame.id))).2,
       st.counter + 1⟩ := by
  unfold processLineG
  have h2b : (lineName line == "") = false := by simpa using h2
  simp [h1, h2b, h3]

/-- The heart of C2, stated from an arbitrary mid-parse state whose stack
top `FA` is the frame of the first same-depth folder (just pushed: no
children yet). Processing the second folder line `lB` at `FA`'s depth pops
`FA` — closing it with its children still empty — and pushing `FB`; the
deeper line `lC` then attaches under `FB`. Whatever lines follow, the
final forest contains the first folder's node with no children at all,
and the node of `lC` carrying the second folder's id as its parent. -/
theorem c2_core (R : List FileNode) (S : List (Frame ℚ)) (k : Nat)
    (FA : Frame ℚ) (lB lC : String) (suffix : List String)
    (hFAc : FA.children = []) (hFAd : FA.depth = lineDepth lB)
    (hB1 : rootLabelSkip lB = false) (hB2 : lineName lB ≠ "")
    (hB3 : lineIsFolder lB = true)
    (hC1 : rootLabelSkip lC = false) (hC2 : lineName lC ≠ "")
    (hdC : lineDepth lB < lineDepth lC) :
    (∃ nA, OccursForest nA
          (parseAfter (processLineG lineDepth
            (processLineG lineDepth ⟨R, FA :: S, k⟩ lB) lC) suffix) ∧
        nA.id = FA.id ∧ nA.name = FA.name ∧ nA.childList = []) ∧
    (∃ nC, OccursForest nC
          (parseAfter (processLineG lineDepth
            (processLineG lineDepth ⟨R, FA :: S, k⟩ lB) lC) suffix) ∧
        nC.id = toString (k + 1) ∧ nC.name = lineName lC ∧
        nC.parentId = some (toString k)) := by
  have hst2 : processLineG lineDepth (⟨R, FA :: S, k⟩ : ParserState ℚ) lB =
      ⟨(popGE (lineDepth lB) R (FA :: S)).1,
       ⟨toString k, lineName lB,
        ((popGE (lineDepth lB) R (FA :: S)).2.head?).map Frame.id, [],
        lineDepth lB⟩ :: (popGE (lineDepth lB) R (FA :: S)).2,
       k + 1⟩ :=
    processLineG_folder lineDepth ⟨R, FA :: S, k⟩ lB hB1 hB2 hB3
  rw [hst2]
  set P2 := popGE (lineDepth lB) R (FA :: S) with hP2
  set FB : Frame ℚ :=
    ⟨toString k, lineName lB, (P2.2.head?).map Frame.id, [], lineDepth lB⟩
    with hFB
  -- the first folder's node is closed with empty children during `lB`'s pop
  have hAocc : StateOccurs FA.close P2.1 P2.2 := by
    rw [hP2]
    exact popGE_top_popped (lineDepth lB) R FA S hFAd.ge
  have hAocc2 : StateOccurs FA.close P2.1 (FB :: P2.2) :=
    stateOccurs_consFrame _ _ _ _ hAocc
  have hnopop : popGE (lineDepth lC) P2.1 (FB :: P2.2) = (P2.1, FB :: P2.2) :=
    popGE_no_pop (lineDepth lC) P2.1 FB P2.2 (not_le.mpr hdC)
  by_cases h3 : lineIsFolder lC
  · have hst3 : processLineG lineDepth
        (⟨P2.1, FB :: P2.2, k + 1⟩ : ParserState ℚ) lC =
        ⟨P2.1,
         (⟨toString (k + 1), lineName lC, some (toString k), [],
           lineDepth lC⟩ : Frame ℚ) :: FB :: P2.2,
         k + 2⟩ := by
      rw [processLineG_folder lineDepth ⟨P2.1, FB :: P2.2, k + 1⟩ lC hC1 hC2 h3]
      rw [show popGE (lineDepth lC) (⟨P2.1, FB :: P2.2, k + 1⟩ :
        ParserState ℚ).result (⟨P2.1, FB :: P2.2, k + 1⟩ :
        ParserState ℚ).stack = (P2.1, FB :: P2.2) from hnopop]
      rfl
    rw [hst3]
    constructor
    · refine ⟨FA.close, ?_, rfl, rfl, hFAc⟩
      refine stateOccurs_final suffix _ FA.close ?_
      exact stateOccurs_consFrame _ _ _ _ hAocc2
    · obtain ⟨m, hocc, hid, hnm, hpar, _⟩ :=
        frames_final suffix
          (⟨P2.1, (⟨toString (k + 1), lineName lC, some (toString k), [],
            lineDepth lC⟩ : Frame ℚ) :: FB :: P2.2, k + 2⟩ : ParserState ℚ)
          (⟨toString (k + 1), lineName lC, some (toString k), [],
            lineDepth lC⟩ : Frame ℚ)
          (Or.inl ⟨_, List.mem_cons_self _ _, frameLe_refl _⟩)
      exact ⟨m, hocc, hid, hnm, hpar⟩
  · have h3f : lineIsFolder lC = false := by simpa using h3
    have hst3 : processLineG lineDepth
        (⟨P2.1, FB :: P2.2, k + 1⟩ : ParserState ℚ) lC =
        ⟨(attachNode P2.1 (FB :: P2.2)
            (.file (toString (k + 1)) (lineName lC)
              (defaultContent (lineName lC)) (some (toString k)))).1,
         (attachNode P2.1 (FB :: P2.2)
            (.file (toString (k + 1)) (lineName lC)
              (defaultContent (lineName lC)) (some (toString k)))).2,
         k + 2⟩ := by
      rw [processLineG_file lineDepth ⟨P2.1, FB :: P2.2, k + 1⟩ lC hC1 hC2 h3f]
      rw [show popGE (lineDepth lC) (⟨P2.1, FB :: P2.2, k + 1⟩ :
        ParserState ℚ).result (⟨P2.1, FB :: P2.2, k + 1⟩ :
        ParserState ℚ).stack = (P2.1, FB :: P2.2) from hnopop]
      rfl
    rw [hst3]
    constructor
    · refine ⟨FA.close, ?_, rfl, rfl, hFAc⟩
      refine stateOccurs_final suffix _ FA.close ?_
      exact stateOccurs_attach_pres _ _ _ _ hAocc2
    · refine ⟨.file (toString (k + 1)) (lineName lC)
        (defaultContent (lineName lC)) (some (toString k)), ?_, rfl, rfl, rfl⟩
      refine stateOccurs_final suffix _ _ ?_
      exact stateOccurs_attach_node _ _ _ _ (occursNode_self _)

/-- C2: the `>=` pop rule and its consequence. First, on a sorted stack
the pop loop removes every frame at depth `≥` the incoming depth (all
surviving frames are strictly shallower). Consequently, for two
non-skipped Folder lines at equal computed depth followed by a non-skipped
line at strictly greater depth — processed from any state, with any lines
following — the final forest contains the first folder's node with an
empty children list (so nothing, in particular not the deeper line's node,
is its descendant), while the deeper line's node carries the second
folder's id as its `parent` reference. -/
theorem c2_same_depth_closing (st : ParserState ℚ) (lA lB lC : String)
    (suffix : List String)
    (hA1 : rootLabelSkip lA = false) (hA2 : lineName lA ≠ "")
    (hA3 : lineIsFolder lA = true)
    (hB1 : rootLabelSkip lB = false) (hB2 : lineName lB ≠ "")
    (hB3 : lineIsFolder lB = true)
    (hC1 : rootLabelSkip lC = false) (hC2 : lineName lC ≠ "")
    (hdAB : lineDepth lB = lineDepth lA) (hdC : lineDepth lA < lineDepth lC) :
    (∀ (d : ℚ) (res : List FileNode) (stk : List (Frame ℚ)),
        StackSorted stk → ∀ f ∈ (popGE d res stk).2, f.depth < d) ∧
    (∃ nA, OccursForest nA
          (parseAfter (processLineG lineDepth (processLineG lineDepth
            (processLineG lineDepth st lA) lB) lC) suffix) ∧
        nA.id = toString st.counter ∧ nA.name = lineName lA ∧
        nA.childList = []) ∧
    (∃ nC, OccursForest nC
          (parseAfter (processLineG lineDepth (processLineG lineDepth
            (processLineG lineDepth st lA) lB) lC) suffix) ∧
        nC.id = toString (st.counter + 2) ∧ nC.name = lineName lC ∧
        nC.parentId = some (toString (st.counter + 1))) := by
  refine ⟨fun d res stk hs => popGE_all_lt d res stk hs, ?_⟩
  rw [processLineG_folder lineDepth st lA hA1 hA2 hA3]
  have hcore := c2_core (popGE (lineDepth lA) st.result st.stack).1
    (popGE (lineDepth lA) st.result st.stack).2 (st.counter + 1)
    ⟨toString st.counter, lineName lA,
      ((popGE (lineDepth lA) st.result st.stack).2.head?).map Frame.id, [],
      lineDepth lA⟩
    lB lC suffix rfl hdAB.symm hB1 hB2 hB3 hC1 hC2 (hdAB ▸ hdC)
  exact hcore

/-- C2 witness: the pop rule and attachment conclusion at the concrete
lines `├── a/`, `├── b/` (both depth 1) and `│   ├── c.py` (depth 2),
processed from the empty initial state with no lines following. -/
theorem c2_same_depth_closing_witness :
    ∃ nC, OccursForest nC
        (parseAfter (processLineG lineDepth (processLineG lineDepth
          (processLineG lineDepth (initState ℚ) "├── a/") "├── b/")
          "│   ├── c.py") []) ∧
      nC.id = toString ((initState ℚ).counter + 2) ∧ nC.name = lineName "│   ├── c.py" ∧
      nC.parentId = some (toString ((initState ℚ).counter + 1)) :=
  (c2_same_depth_closing (initState ℚ) "├── a/" "├── b/" "│   ├── c.py" []
    (by decide) (by decide) (by decide) (by decide) (by decide) (by decide)
    (by decide) (by decide)
    (by
      have h1 : lineDepthScaled "├── b/" = 4 := by decide
      have h2 : lineDepthScaled "├── a/" = 4 := by decide
      rw [lineDepth_eq, lineDepth_eq, h1, h2])
    (by
      have h2 : lineDepthScaled "├── a/" = 4 := by decide
      have h3 : lineDepthScaled "│   ├── c.py" = 8 := by decide
      rw [lineDepth_eq, lineDepth_eq, h2, h3]
      norm_num [qOfScaled])).2.2

end CodeArchitectSync
